import Mathlib

/-!
# Verification of the `sx` string-case library

A shallow embedding of `sx.go` (package `sx`): a tokenizer that splits
identifier-like strings into words at separator characters and at case
transitions, and six casing conventions (Pascal, Camel, Kebab, Snake, Train,
Flat) serialized from the word sequence.

Strings are modelled as lists of runes (Lean `Char`), mirroring Go's
`[]rune(s)` conversion at the top of the tokenizer.  Go's `unicode`
classification functions (`IsUpper`, `IsLower`, `IsLetter`, `IsDigit`) are
modelled by the corresponding `Char` predicates, which agree with Go on the
ASCII range; `strings.ToLower` / `unicode.ToUpper` are modelled by
`Char.toLower` / `Char.toUpper` likewise.  `strings.TrimSpace` is modelled
with Go's `unicode.IsSpace` ASCII whitespace set.
-/

namespace Sx

/-- `defaultSeparators` from sx.go: common separators used for splitting strings. -/
def defaultSeparators : List Char := ['-', '_', '/', '.', ' ', '\\']

/-- `isSeparator` from sx.go: checks if a rune is a common separator. -/
def isSeparator (r : Char) : Bool :=
  defaultSeparators.contains r

/-- `isSeparatorCustom` from sx.go: checks if a rune is in the custom separator list. -/
def isSeparatorCustom (r : Char) (separators : List Char) : Bool :=
  separators.contains r

/-- `isLetterCaseChange` from sx.go: detects case transitions.  The Go function
is a sequence of early-return `if`s; each branch returns `true`, so it is the
disjunction of the branch conditions. -/
def isLetterCaseChange (prev curr next : Char) : Bool :=
  ((prev.isAlpha && curr.isAlpha) &&
    ((prev.isLower && curr.isUpper) ||
     (prev.isUpper && curr.isUpper && next.isAlpha && next.isLower)))
  ||
  (((prev.isDigit || prev.isAlpha) && curr.isAlpha) &&
    (prev.isDigit && curr.isUpper))

/-- Go `unicode.IsSpace` restricted to the ASCII range: `\t`, `\n`, `\v`, `\f`,
`\r`, space. -/
def isSpaceRune (c : Char) : Bool :=
  c = '\t' || c = '\n' || c = '\x0B' || c = '\x0C' || c = '\r' || c = ' '

/-- Go `strings.TrimSpace` on the rune model: drop whitespace from both edges. -/
def trimSpace (w : List Char) : List Char :=
  ((w.dropWhile isSpaceRune).reverse.dropWhile isSpaceRune).reverse

/-- The active separator test of `splitByCaseWithCustomSeparators`: custom
separators when supplied (`customSeparators != nil` in Go, i.e. `some`), the
default set otherwise. -/
def sepTest (customSeparators : Option (List Char)) (r : Char) : Bool :=
  match customSeparators with
  | some seps => isSeparatorCustom r seps
  | none => isSeparator r

/-- `runes[i+1]` when a next rune exists, the zero rune otherwise (Go's
zero-initialized `nextRune`). -/
def nextRune : List Char → Char
  | [] => Char.ofNat 0
  | c :: _ => c

/-- The scanning loop of `splitByCaseWithCustomSeparators` from sx.go.  State:
the previous rune (`none` at position 0, matching the `i > 0` guard), the
remaining input, the accumulated `words`, and the `currentWord` buffer.
A separator pushes the trimmed current word (even if empty) and is itself
skipped; a detected case change pushes the trimmed current word and starts the
new word with the current rune; otherwise the rune is appended.  Returns the
final `(words, currentWord)` pair. -/
def splitLoop (sep : Char → Bool) :
    Option Char → List Char → List (List Char) → List Char →
    List (List Char) × List Char
  | _, [], words, cur => (words, cur)
  | prev, r :: rest, words, cur =>
    if sep r then
      splitLoop sep (some r) rest (words ++ [trimSpace cur]) []
    else if (match prev with
             | some p => isLetterCaseChange p r (nextRune rest)
             | none => false) then
      splitLoop sep (some r) rest (words ++ [trimSpace cur]) [r]
    else
      splitLoop sep (some r) rest words (cur ++ [r])

/-- `splitByCaseWithCustomSeparators` from sx.go: split a string into words,
with optional custom separators.  After the scan, the trailing current word is
flushed only when non-empty. -/
def splitByCaseWithCustomSeparators (s : List Char)
    (customSeparators : Option (List Char)) : List (List Char) :=
  if s = [] then []
  else
    let r := splitLoop (sepTest customSeparators) none s [] []
    if r.2.length > 0 then r.1 ++ [trimSpace r.2] else r.1

/-- `SplitByCase` from sx.go with no options: the default separator set. -/
def SplitByCase (s : List Char) : List (List Char) :=
  splitByCaseWithCustomSeparators s none

/-- `SplitByCase` from sx.go with `WithSeparators(seps...)`: the supplied
separators replace the defaults (`Separators` is set to a copy of the list). -/
def SplitByCaseWith (s : List Char) (seps : List Char) : List (List Char) :=
  splitByCaseWithCustomSeparators s (some seps)

/-- `normalizeWord` from sx.go: lowercase the whole word when `normalize` is
set, otherwise leave it untouched. -/
def normalizeWord (word : List Char) (normalize : Bool) : List Char :=
  if normalize then word.map Char.toLower else word

/-- `capitalizeWord` from sx.go: uppercase the first rune, keep the rest.
(The Go `size == 0` guard is unreachable on a non-empty string.) -/
def capitalizeWord : List Char → List Char
  | [] => []
  | c :: rest => Char.toUpper c :: rest

/-- `lowercaseWord` from sx.go: lowercase the first rune, keep the rest. -/
def lowercaseWord : List Char → List Char
  | [] => []
  | c :: rest => Char.toLower c :: rest

/-- The indexed writing loop of `joinWords` from sx.go: before every word but
the first, the separator is written when it is non-empty; then the transformed
word. -/
def joinLoop (sep : List Char) (transform : List Char → Nat → List Char) :
    Nat → List (List Char) → List Char
  | _, [] => []
  | i, w :: rest =>
    (if 0 < i ∧ sep ≠ [] then sep else []) ++ transform w i ++
      joinLoop sep transform (i + 1) rest

/-- `joinWords` from sx.go: empty input joins to the empty string; empty words
are filtered out first unless `preserveEmpty`; then the indexed join loop. -/
def joinWords (words : List (List Char)) (separator : List Char)
    (preserveEmpty : Bool) (transform : List Char → Nat → List Char) :
    List Char :=
  if words = [] then []
  else
    let wordsToUse := if preserveEmpty then words
                      else words.filter (fun w => !w.isEmpty)
    joinLoop separator transform 0 wordsToUse

/-- `PascalCase` from sx.go on string input.  The functional options collapse
to the `Normalize` flag, passed here as a plain `Bool` (`false` when no option
is given). -/
def PascalCaseStr (s : List Char) (normalize : Bool) : List Char :=
  joinWords (splitByCaseWithCustomSeparators s none) [] false
    (fun word _ => capitalizeWord (normalizeWord word normalize))

/-- `PascalCase` from sx.go on `[]string` input. -/
def PascalCaseWords (v : List (List Char)) (normalize : Bool) : List Char :=
  joinWords v [] false
    (fun word _ => capitalizeWord (normalizeWord word normalize))

/-- `CamelCase` from sx.go on string input: `lowercaseWord(PascalCase(v))`. -/
def CamelCaseStr (s : List Char) (normalize : Bool) : List Char :=
  lowercaseWord (PascalCaseStr s normalize)

/-- `CamelCase` from sx.go on `[]string` input: empty slice yields the empty
string; otherwise the first word gets `lowercaseWord`, the rest
`capitalizeWord`. -/
def CamelCaseWords (v : List (List Char)) (normalize : Bool) : List Char :=
  if v = [] then []
  else
    joinWords v [] false
      (fun word i =>
        if i = 0 then lowercaseWord (normalizeWord word normalize)
        else capitalizeWord (normalizeWord word normalize))

/-- `KebabCase` from sx.go on string input.  `separator` models the Go
variadic argument: the head when supplied, `"-"` otherwise. -/
def KebabCaseStr (s : List Char) (separator : List (List Char)) : List Char :=
  joinWords (splitByCaseWithCustomSeparators s none) (separator.headD ['-'])
    true (fun word _ => word.map Char.toLower)

/-- `KebabCase` from sx.go on `[]string` input. -/
def KebabCaseWords (v : List (List Char)) (separator : List (List Char)) :
    List Char :=
  joinWords v (separator.headD ['-']) true (fun word _ => word.map Char.toLower)

/-- `SnakeCase` from sx.go on string input: `KebabCase(input, "_")`. -/
def SnakeCaseStr (s : List Char) : List Char :=
  KebabCaseStr s [['_']]

/-- `SnakeCase` from sx.go on `[]string` input. -/
def SnakeCaseWords (v : List (List Char)) : List Char :=
  KebabCaseWords v [['_']]

/-- `TrainCase` from sx.go on string input. -/
def TrainCaseStr (s : List Char) (normalize : Bool) : List Char :=
  joinWords (splitByCaseWithCustomSeparators s none) ['-'] false
    (fun word _ => capitalizeWord (normalizeWord word normalize))

/-- `TrainCase` from sx.go on `[]string` input. -/
def TrainCaseWords (v : List (List Char)) (normalize : Bool) : List Char :=
  joinWords v ['-'] false
    (fun word _ => capitalizeWord (normalizeWord word normalize))

/-- `FlatCase` from sx.go on string input: `KebabCase(input, "")`. -/
def FlatCaseStr (s : List Char) : List Char :=
  KebabCaseStr s [[]]

/-- `FlatCase` from sx.go on `[]string` input. -/
def FlatCaseWords (v : List (List Char)) : List Char :=
  KebabCaseWords v [[]]

/-- `UpperFirst` from sx.go: `capitalizeWord(s)`. -/
def UpperFirst (s : List Char) : List Char :=
  capitalizeWord s

/-- `LowerFirst` from sx.go: `lowercaseWord(s)`. -/
def LowerFirst (s : List Char) : List Char :=
  lowercaseWord s

/-- Splitting on case transitions alone: the scan loop run with a separator
test that never fires, so no character is ever treated as a separator.  Used to
state that an empty separator override means pure case-splitting. -/
def splitByCaseOnly (s : List Char) : List (List Char) :=
  if s = [] then []
  else
    let r := splitLoop (fun _ => false) none s [] []
    if r.2.length > 0 then r.1 ++ [trimSpace r.2] else r.1

/-- The head of the list when it exists, a supplied fallback rune otherwise;
`nextRune l = nextD (Char.ofNat 0) l`. -/
def nextD (nx : Char) : List Char → Char
  | [] => nx
  | c :: _ => c

/-- `scanOk nx prev l`: scanning the run `l` after the rune `prev` fires no
case transition, where the rune following the end of `l` is `nx`.  This is the
shape of the tokenizer loop's case-transition test restricted to one word. -/
def scanOk (nx : Char) : Char → List Char → Bool
  | _, [] => true
  | prev, r :: rest =>
    !isLetterCaseChange prev r (nextD nx rest) && scanOk nx r rest

/-- A word is scan-stable: scanning it (with `nx` as the rune after its end)
fires no case transition at any interior position. -/
def wordOk (nx : Char) : List Char → Bool
  | [] => true
  | a :: t => scanOk nx a t

/-- Words joined with a single separator rune between consecutive entries —
the shape of the Kebab/Snake/Train output that the idempotence arguments
re-tokenize. -/
def interSep (d : Char) : List (List Char) → List Char
  | [] => []
  | [v] => v
  | v :: vs => v ++ d :: interSep d vs

/-! ## Arithmetic facts about the `Char` case functions -/

theorem char_toNat_ofNat {m : Nat} (h : m.isValidChar) :
    (Char.ofNat m).toNat = m := by
  simp [Char.ofNat, h, Char.ofNatAux, Char.toNat, UInt32.toNat]

theorem char_ofNat_toNat (c : Char) : Char.ofNat c.toNat = c := by
  have h : c.toNat.isValidChar := c.valid
  apply Char.eq_of_val_eq
  simp only [Char.ofNat, h, reduceDIte, Char.ofNatAux]
  apply UInt32.eq_of_toBitVec_eq
  apply BitVec.eq_of_toNat_eq
  simp [Char.toNat, UInt32.toNat, BitVec.ofNatLt]

theorem char_toNat_inj {c d : Char} (h : c.toNat = d.toNat) : c = d := by
  rw [← char_ofNat_toNat c, ← char_ofNat_toNat d, h]

theorem char_eq_iff_toNat {c d : Char} : c = d ↔ c.toNat = d.toNat :=
  ⟨fun h => by rw [h], char_toNat_inj⟩

theorem isUpper_iff {c : Char} : c.isUpper = true ↔ 65 ≤ c.toNat ∧ c.toNat ≤ 90 := by
  simp [Char.isUpper, Char.toNat, UInt32.le_def, BitVec.le_def, UInt32.toNat]

theorem isLower_iff {c : Char} : c.isLower = true ↔ 97 ≤ c.toNat ∧ c.toNat ≤ 122 := by
  simp [Char.isLower, Char.toNat, UInt32.le_def, BitVec.le_def, UInt32.toNat]

theorem isDigit_iff {c : Char} : c.isDigit = true ↔ 48 ≤ c.toNat ∧ c.toNat ≤ 57 := by
  simp [Char.isDigit, Char.toNat, UInt32.le_def, BitVec.le_def, UInt32.toNat]

theorem toNat_toUpper (c : Char) :
    (c.toUpper).toNat =
      if c.toNat ≥ 97 ∧ c.toNat ≤ 122 then c.toNat - 32 else c.toNat := by
  unfold Char.toUpper
  split
  · next h =>
    rw [if_pos h]
    exact char_toNat_ofNat (Or.inl (by omega))
  · next h => rw [if_neg h]

theorem toNat_toLower (c : Char) :
    (c.toLower).toNat =
      if c.toNat ≥ 65 ∧ c.toNat ≤ 90 then c.toNat + 32 else c.toNat := by
  unfold Char.toLower
  split
  · next h =>
    rw [if_pos h]
    exact char_toNat_ofNat (Or.inl (by omega))
  · next h => rw [if_neg h]

theorem toLower_toUpper (c : Char) : c.toUpper.toLower = c.toLower := by
  apply char_toNat_inj
  rw [toNat_toLower, toNat_toLower, toNat_toUpper]
  split_ifs <;> omega

theorem toUpper_toUpper (c : Char) : c.toUpper.toUpper = c.toUpper := by
  apply char_toNat_inj
  rw [toNat_toUpper, toNat_toUpper]
  split_ifs <;> omega

theorem toLower_toLower (c : Char) : c.toLower.toLower = c.toLower := by
  apply char_toNat_inj
  rw [toNat_toLower, toNat_toLower]
  split_ifs <;> omega

theorem isLower_toUpper (c : Char) : c.toUpper.isLower = false := by
  rw [Bool.eq_false_iff]
  intro hl
  rw [isLower_iff, toNat_toUpper] at hl
  revert hl
  split_ifs <;> omega

theorem isUpper_toLower (c : Char) : c.toLower.isUpper = false := by
  rw [Bool.eq_false_iff]
  intro hl
  rw [isUpper_iff, toNat_toLower] at hl
  revert hl
  split_ifs <;> omega

theorem toUpper_of_isUpper {c : Char} (h : c.isUpper = true) : c.toUpper = c := by
  rw [isUpper_iff] at h
  apply char_toNat_inj
  rw [toNat_toUpper]
  split_ifs <;> omega

/-! ## Characterization of the case-transition predicate -/

theorem isLCC_iff (prev curr next : Char) :
    isLetterCaseChange prev curr next = true ↔
      (prev.isLower = true ∧ curr.isUpper = true) ∨
      (prev.isUpper = true ∧ curr.isUpper = true ∧ next.isLower = true) ∨
      (prev.isDigit = true ∧ curr.isUpper = true) := by
  simp only [isLetterCaseChange, Char.isAlpha]
  cases h1 : prev.isUpper <;> cases h2 : prev.isLower <;> cases h3 : prev.isDigit <;>
    cases h4 : curr.isUpper <;> cases h5 : curr.isLower <;>
    cases h6 : next.isUpper <;> cases h7 : next.isLower <;> simp_all

theorem isLCC_false_of_not_upper {prev curr next : Char}
    (h : curr.isUpper = false) : isLetterCaseChange prev curr next = false := by
  rw [Bool.eq_false_iff]
  intro hf
  rw [isLCC_iff] at hf
  rcases hf with ⟨_, h2⟩ | ⟨_, h2, _⟩ | ⟨_, h2⟩ <;> rw [h] at h2 <;> exact absurd h2 (by simp)

theorem isLCC_upper_curr {prev curr next : Char}
    (h : isLetterCaseChange prev curr next = true) : curr.isUpper = true := by
  rw [isLCC_iff] at h
  rcases h with ⟨_, h2⟩ | ⟨_, h2, _⟩ | ⟨_, h2⟩ <;> exact h2

theorem isLCC_classified_prev {prev curr next : Char}
    (h : isLetterCaseChange prev curr next = true) :
    prev.isLower = true ∨ prev.isUpper = true ∨ prev.isDigit = true := by
  rw [isLCC_iff] at h
  rcases h with ⟨h1, _⟩ | ⟨h1, _, _⟩ | ⟨h1, _⟩
  · exact Or.inl h1
  · exact Or.inr (Or.inl h1)
  · exact Or.inr (Or.inr h1)

theorem isLCC_zero_imp {a b : Char} (c : Char)
    (h : isLetterCaseChange a b (Char.ofNat 0) = true) :
    isLetterCaseChange a b c = true := by
  rw [isLCC_iff] at h ⊢
  rcases h with h | h | h
  · exact Or.inl h
  · exact absurd h.2.2 (by decide)
  · exact Or.inr (Or.inr h)

theorem isLCC_congr_next {a b n1 n2 : Char} (h1 : n1.isLower = false)
    (h2 : n2.isLower = false) :
    isLetterCaseChange a b n1 = isLetterCaseChange a b n2 := by
  rw [Bool.eq_iff_iff, isLCC_iff, isLCC_iff]
  constructor <;> rintro (h | h | h)
  · exact Or.inl h
  · rw [h1] at h
    exact absurd h.2.2 (by simp)
  · exact Or.inr (Or.inr h)
  · exact Or.inl h
  · rw [h2] at h
    exact absurd h.2.2 (by simp)
  · exact Or.inr (Or.inr h)

theorem isLCC_neutral_prev {p r n : Char} (h1 : p.isLower = false)
    (h2 : p.isUpper = false) (h3 : p.isDigit = false) :
    isLetterCaseChange p r n = false := by
  rw [Bool.eq_false_iff]
  intro hf
  rcases isLCC_classified_prev hf with h | h | h
  · rw [h1] at h; exact absurd h (by simp)
  · rw [h2] at h; exact absurd h (by simp)
  · rw [h3] at h; exact absurd h (by simp)

/-! ## More classification bridges -/

theorem isSpaceRune_iff {c : Char} :
    isSpaceRune c = true ↔
      c.toNat = 9 ∨ c.toNat = 10 ∨ c.toNat = 11 ∨ c.toNat = 12 ∨
      c.toNat = 13 ∨ c.toNat = 32 := by
  have e1 : '\t'.toNat = 9 := rfl
  have e2 : '\n'.toNat = 10 := rfl
  have e3 : '\x0B'.toNat = 11 := rfl
  have e4 : '\x0C'.toNat = 12 := rfl
  have e5 : '\r'.toNat = 13 := rfl
  have e6 : ' '.toNat = 32 := rfl
  unfold isSpaceRune
  simp only [Bool.or_eq_true, decide_eq_true_eq, char_eq_iff_toNat,
    e1, e2, e3, e4, e5, e6]
  tauto

theorem isSeparator_iff {c : Char} :
    isSeparator c = true ↔
      c.toNat = 45 ∨ c.toNat = 95 ∨ c.toNat = 47 ∨ c.toNat = 46 ∨
      c.toNat = 32 ∨ c.toNat = 92 := by
  have e1 : ('-').toNat = 45 := rfl
  have e2 : ('_').toNat = 95 := rfl
  have e3 : ('/').toNat = 47 := rfl
  have e4 : ('.').toNat = 46 := rfl
  have e5 : (' ').toNat = 32 := rfl
  have e6 : ('\\').toNat = 92 := rfl
  unfold isSeparator defaultSeparators
  simp only [List.contains_cons, List.contains_nil, Bool.or_eq_true,
    beq_iff_eq, Bool.false_eq_true, or_false, char_eq_iff_toNat,
    e1, e2, e3, e4, e5, e6]

theorem isSpaceRune_toUpper (c : Char) : isSpaceRune c.toUpper = isSpaceRune c := by
  rw [Bool.eq_iff_iff, isSpaceRune_iff, isSpaceRune_iff, toNat_toUpper]
  split_ifs <;> omega

theorem isSpaceRune_toLower (c : Char) : isSpaceRune c.toLower = isSpaceRune c := by
  rw [Bool.eq_iff_iff, isSpaceRune_iff, isSpaceRune_iff, toNat_toLower]
  split_ifs <;> omega

theorem isSeparator_toUpper (c : Char) : isSeparator c.toUpper = isSeparator c := by
  rw [Bool.eq_iff_iff, isSeparator_iff, isSeparator_iff, toNat_toUpper]
  split_ifs <;> omega

theorem isSeparator_toLower (c : Char) : isSeparator c.toLower = isSeparator c := by
  rw [Bool.eq_iff_iff, isSeparator_iff, isSeparator_iff, toNat_toLower]
  split_ifs <;> omega

theorem isSpaceRune_false_of_classified {c : Char}
    (h : c.isLower = true ∨ c.isUpper = true ∨ c.isDigit = true) :
    isSpaceRune c = false := by
  rw [Bool.eq_false_iff]
  intro hs
  rw [isSpaceRune_iff] at hs
  rcases h with h | h | h
  · rw [isLower_iff] at h; omega
  · rw [isUpper_iff] at h; omega
  · rw [isDigit_iff] at h; omega

theorem isDigit_toUpper (c : Char) : c.toUpper.isDigit = c.isDigit := by
  rw [Bool.eq_iff_iff, isDigit_iff, isDigit_iff, toNat_toUpper]
  split_ifs <;> omega

theorem isLCC_toUpper_prev {c r n : Char}
    (h : isLetterCaseChange c r n = false) :
    isLetterCaseChange (Char.toUpper c) r n = false := by
  rw [Bool.eq_false_iff] at h ⊢
  intro hf
  apply h
  rw [isLCC_iff] at hf ⊢
  rcases hf with ⟨h1, _⟩ | ⟨h1, h2, h3⟩ | ⟨h1, h2⟩
  · rw [isLower_toUpper] at h1
    exact absurd h1 (by simp)
  · rw [isUpper_iff, toNat_toUpper] at h1
    by_cases hc : c.toNat ≥ 97 ∧ c.toNat ≤ 122
    · rw [if_pos hc] at h1
      exact Or.inl ⟨isLower_iff.2 (by omega), h2⟩
    · rw [if_neg hc] at h1
      exact Or.inr (Or.inl ⟨isUpper_iff.2 h1, h2, h3⟩)
  · rw [isDigit_toUpper] at h1
    exact Or.inr (Or.inr ⟨h1, h2⟩)

/-! ## Trimming lemmas -/

theorem headD_dropWhile (p : Char → Bool) (l : List Char) (d : Char)
    (hd : p d = false) : p ((l.dropWhile p).headD d) = false := by
  induction l with
  | nil => simpa using hd
  | cons a t ih =>
    rw [List.dropWhile_cons]
    split
    · exact ih
    · next h => simpa using h

theorem trim_decomp (w : List Char) :
    w.dropWhile isSpaceRune =
      trimSpace w ++
        ((w.dropWhile isSpaceRune).reverse.takeWhile isSpaceRune).reverse := by
  have h := congrArg List.reverse
    (List.takeWhile_append_dropWhile isSpaceRune (w.dropWhile isSpaceRune).reverse)
  rw [List.reverse_append, List.reverse_reverse] at h
  exact h.symm

theorem trim_edges (w : List Char) :
    isSpaceRune ((trimSpace w).headD 'a') = false ∧
    isSpaceRune ((trimSpace w).reverse.headD 'a') = false := by
  constructor
  · cases htv : trimSpace w with
    | nil => decide
    | cons c t =>
      have hd := headD_dropWhile isSpaceRune w 'a' (by decide)
      rw [trim_decomp w, htv] at hd
      simpa using hd
  · have h : (trimSpace w).reverse =
        (w.dropWhile isSpaceRune).reverse.dropWhile isSpaceRune := by
      unfold trimSpace
      rw [List.reverse_reverse]
    rw [h]
    exact headD_dropWhile _ _ _ (by decide)

theorem trim_eq_self_of_edges {w : List Char}
    (h1 : isSpaceRune (w.headD 'a') = false)
    (h2 : isSpaceRune (w.reverse.headD 'a') = false) : trimSpace w = w := by
  unfold trimSpace
  cases hw : w with
  | nil => rfl
  | cons c t =>
    rw [hw] at h1
    simp only [List.headD_cons] at h1
    rw [List.dropWhile_cons_of_neg (by simp [h1]), ← hw]
    cases hr : w.reverse with
    | nil => simp at hr; simp [hr] at hw
    | cons d s =>
      rw [hr] at h2
      simp only [List.headD_cons] at h2
      rw [List.dropWhile_cons_of_neg (by simp [h2]), ← hr,
        List.reverse_reverse]

theorem trimSpace_idem (w : List Char) : trimSpace (trimSpace w) = trimSpace w :=
  trim_eq_self_of_edges (trim_edges w).1 (trim_edges w).2

/-! ## Loop invariants of the tokenizer scan -/

theorem splitLoop_trimmed (sep : Char → Bool) :
    ∀ (s : List Char) (prev : Option Char) (words : List (List Char))
      (cur : List Char),
      (∀ w ∈ words, trimSpace w = w) →
      ∀ w ∈ (splitLoop sep prev s words cur).1, trimSpace w = w := by
  intro s
  induction s with
  | nil =>
    intro prev words cur h
    simpa [splitLoop] using h
  | cons r rest ih =>
    intro prev words cur h
    simp only [splitLoop]
    have hpush : ∀ w ∈ words ++ [trimSpace cur], trimSpace w = w := by
      intro w hw
      rcases List.mem_append.1 hw with h1 | h2
      · exact h w h1
      · rw [List.mem_singleton.1 h2]
        exact trimSpace_idem cur
    split
    · exact ih (some r) _ [] hpush
    · split
      · exact ih (some r) _ [r] hpush
      · exact ih (some r) _ (cur ++ [r]) h

theorem splitLoop_all_sep (sep : Char → Bool) :
    ∀ (s : List Char) (prev : Option Char) (words : List (List Char)),
      (∀ c ∈ s, sep c = true) →
      splitLoop sep prev s words [] = (words ++ List.replicate s.length [], []) := by
  intro s
  induction s with
  | nil => intro prev words _; simp [splitLoop]
  | cons r rest ih =>
    intro prev words h
    have hr : sep r = true := h r (by simp)
    simp only [splitLoop]
    rw [if_pos hr]
    rw [ih (some r) (words ++ [trimSpace []]) (fun c hc => h c (by simp [hc]))]
    simp [trimSpace, List.replicate_succ]

/-! ## Scan-stability lemmas -/

theorem scanOk_congr {nx nx' : Char} (h1 : nx.isLower = false)
    (h2 : nx'.isLower = false) :
    ∀ (a : Char) (l : List Char), scanOk nx a l = scanOk nx' a l := by
  intro a l
  induction l generalizing a with
  | nil => rfl
  | cons r rest ih =>
    cases rest with
    | nil =>
      simp only [scanOk, nextD]
      rw [isLCC_congr_next h1 h2]
    | cons c cs =>
      show (!isLetterCaseChange a r (nextD nx (c :: cs)) && scanOk nx r (c :: cs)) =
        (!isLetterCaseChange a r (nextD nx' (c :: cs)) && scanOk nx' r (c :: cs))
      rw [ih r]
      rfl

theorem scanOk_zero {nx : Char} :
    ∀ {t : List Char} {a : Char}, scanOk nx a t = true →
      scanOk (Char.ofNat 0) a t = true := by
  intro t
  induction t with
  | nil => intro a _; rfl
  | cons r rest ih =>
    intro a h
    simp only [scanOk, Bool.and_eq_true] at h ⊢
    obtain ⟨ha, hb⟩ := h
    refine ⟨?_, ih hb⟩
    cases rest with
    | nil =>
      simp only [nextD] at ha ⊢
      cases hz : isLetterCaseChange a r (Char.ofNat 0) with
      | false => simp
      | true =>
        rw [isLCC_zero_imp nx hz] at ha
        simp at ha
    | cons c cs =>
      simpa [nextD] using ha

theorem scanOk_snoc {a r nx' : Char} :
    ∀ {t : List Char}, scanOk r a t = true →
      isLetterCaseChange (t.getLastD a) r nx' = false →
      scanOk nx' a (t ++ [r]) = true := by
  intro t
  induction t generalizing a with
  | nil =>
    intro _ h2
    simp only [List.getLastD_nil] at h2
    simp [scanOk, nextD, h2]
  | cons b t2 ih =>
    intro h1 h2
    simp only [scanOk, Bool.and_eq_true] at h1
    obtain ⟨ha, hb⟩ := h1
    rw [List.getLastD_cons] at h2
    simp only [List.cons_append, scanOk, Bool.and_eq_true]
    refine ⟨?_, ih hb h2⟩
    cases t2 with
    | nil => simpa [nextD] using ha
    | cons c cs => simpa [nextD] using ha

theorem scanOk_take {nx : Char} (hnx : nx.isLower = false) :
    ∀ (t : List Char) (a : Char) (n : Nat), scanOk nx a t = true →
      scanOk nx a (t.take n) = true := by
  intro t
  induction t with
  | nil =>
    intro a n _
    rw [List.take_nil]
    rfl
  | cons r rest ih =>
    intro a n h
    cases n with
    | zero => rfl
    | succ m =>
      rw [List.take_succ_cons]
      simp only [scanOk, Bool.and_eq_true] at h ⊢
      obtain ⟨ha, hb⟩ := h
      refine ⟨?_, ih r m hb⟩
      cases rest with
      | nil =>
        simpa [List.take_nil] using ha
      | cons c cs =>
        cases m with
        | zero =>
          simp only [List.take_zero, nextD]
          cases hz : isLetterCaseChange a r nx with
          | false => simp
          | true =>
            have h0 : isLetterCaseChange a r (Char.ofNat 0) = true := by
              have hcg : isLetterCaseChange a r nx =
                  isLetterCaseChange a r (Char.ofNat 0) :=
                isLCC_congr_next hnx (by decide)
              rw [← hcg]
              exact hz
            have hc := isLCC_zero_imp c h0
            rw [nextD] at ha
            rw [hc] at ha
            simp at ha
        | succ k =>
          simpa [List.take_succ_cons, nextD] using ha

theorem wordOk_tail {nx a : Char} {t : List Char}
    (h : wordOk nx (a :: t) = true) : wordOk nx t = true := by
  cases t with
  | nil => rfl
  | cons b t2 =>
    simp only [wordOk, scanOk, Bool.and_eq_true] at h ⊢
    exact h.2

theorem wordOk_dropWhile {nx : Char} (p : Char → Bool) :
    ∀ {w : List Char}, wordOk nx w = true → wordOk nx (w.dropWhile p) = true := by
  intro w
  induction w with
  | nil => exact fun h => h
  | cons a t ih =>
    intro h
    rw [List.dropWhile_cons]
    split
    · exact ih (wordOk_tail h)
    · exact h

theorem wordOk_take {nx : Char} (hnx : nx.isLower = false) {w : List Char}
    (h : wordOk nx w = true) (n : Nat) : wordOk nx (w.take n) = true := by
  cases w with
  | nil => simpa using h
  | cons a t =>
    cases n with
    | zero => rfl
    | succ m =>
      rw [List.take_succ_cons]
      exact scanOk_take hnx t a m h

theorem rtrim_eq_take (u : List Char) :
    ∃ n, (u.reverse.dropWhile isSpaceRune).reverse = u.take n := by
  have h := congrArg List.reverse
    (List.takeWhile_append_dropWhile isSpaceRune u.reverse)
  rw [List.reverse_append, List.reverse_reverse] at h
  refine ⟨(u.reverse.dropWhile isSpaceRune).reverse.length, ?_⟩
  generalize hA : (u.reverse.dropWhile isSpaceRune).reverse = A at h ⊢
  rw [← h, List.take_left]

theorem wordOk_trim {w : List Char} (h : wordOk (Char.ofNat 0) w = true) :
    wordOk (Char.ofNat 0) (trimSpace w) = true := by
  unfold trimSpace
  obtain ⟨n, hn⟩ := rtrim_eq_take (w.dropWhile isSpaceRune)
  rw [hn]
  exact wordOk_take (by decide) (wordOk_dropWhile _ h) n

theorem scanOk_of_no_upper {nx : Char} :
    ∀ {t : List Char} {a : Char}, (∀ c ∈ t, c.isUpper = false) →
      scanOk nx a t = true := by
  intro t
  induction t with
  | nil => intro a _; rfl
  | cons r rest ih =>
    intro a h
    simp only [scanOk, Bool.and_eq_true]
    refine ⟨?_, ih (fun c hc => h c (List.mem_cons_of_mem r hc))⟩
    rw [isLCC_false_of_not_upper (h r (List.mem_cons_self r rest))]
    rfl

theorem wordOk_of_no_upper {nx : Char} {w : List Char}
    (h : ∀ c ∈ w, c.isUpper = false) : wordOk nx w = true := by
  cases w with
  | nil => rfl
  | cons a t => exact scanOk_of_no_upper (fun c hc => h c (List.mem_cons_of_mem a hc))

theorem wordOk_cap {w : List Char} (h : wordOk (Char.ofNat 0) w = true) :
    wordOk (Char.ofNat 0) (capitalizeWord w) = true := by
  cases w with
  | nil => rfl
  | cons c t =>
    cases t with
    | nil => rfl
    | cons b t2 =>
      simp only [capitalizeWord, wordOk, scanOk, Bool.and_eq_true] at h ⊢
      obtain ⟨ha, hb⟩ := h
      refine ⟨?_, hb⟩
      rw [Bool.not_eq_true'] at ha ⊢
      exact isLCC_toUpper_prev ha

theorem getLastD_eq_reverse_headD (l : List Char) (d : Char) :
    l.getLastD d = l.reverse.headD d := by
  induction l generalizing d with
  | nil => rfl
  | cons a t ih =>
    rw [List.getLastD_cons, ih, List.reverse_cons]
    cases h : t.reverse with
    | nil => simp [h]
    | cons c cs => simp [h]

theorem mem_trimSpace {c : Char} {w : List Char} (h : c ∈ trimSpace w) : c ∈ w := by
  unfold trimSpace at h
  rw [List.mem_reverse] at h
  have h2 := (List.dropWhile_sublist _).subset h
  rw [List.mem_reverse] at h2
  exact (List.dropWhile_sublist _).subset h2

/-! ## The tokenizer only emits scan-stable, separator-free words -/

theorem splitLoop_words_ok (sep : Char → Bool) :
    ∀ (s : List Char) (prev : Option Char) (words : List (List Char))
      (cur : List Char),
      (∀ w ∈ words, wordOk (Char.ofNat 0) w = true ∧ ∀ c ∈ w, sep c = false) →
      (∀ c ∈ cur, sep c = false) →
      (cur = [] ∨ ∃ a t, cur = a :: t ∧ scanOk (nextRune s) a t = true ∧
        prev = some (t.getLastD a)) →
      (∀ w ∈ (splitLoop sep prev s words cur).1,
        wordOk (Char.ofNat 0) w = true ∧ ∀ c ∈ w, sep c = false) ∧
      (∀ c ∈ (splitLoop sep prev s words cur).2, sep c = false) ∧
      wordOk (Char.ofNat 0) (splitLoop sep prev s words cur).2 = true := by
  intro s
  induction s with
  | nil =>
    intro prev words cur hwords hcur hinv
    simp only [splitLoop]
    refine ⟨hwords, hcur, ?_⟩
    rcases hinv with rfl | ⟨a, t, rfl, hscan, _⟩
    · rfl
    · exact scanOk_zero hscan
  | cons r rest ih =>
    intro prev words cur hwords hcur hinv
    have hpushOk : wordOk (Char.ofNat 0) (trimSpace cur) = true := by
      rcases hinv with rfl | ⟨a, t, rfl, hscan, _⟩
      · rfl
      · exact wordOk_trim (scanOk_zero hscan)
    have hpushSep : ∀ c ∈ trimSpace cur, sep c = false :=
      fun c hc => hcur c (mem_trimSpace hc)
    have hpushWords : ∀ w ∈ words ++ [trimSpace cur],
        wordOk (Char.ofNat 0) w = true ∧ ∀ c ∈ w, sep c = false := by
      intro w hw
      rcases List.mem_append.1 hw with h1 | h2
      · exact hwords w h1
      · rw [List.mem_singleton.1 h2]
        exact ⟨hpushOk, hpushSep⟩
    simp only [splitLoop]
    split
    · exact ih (some r) _ [] hpushWords (by simp) (Or.inl rfl)
    · split
      · next hcc =>
        have hsepr : sep r = false := by
          next hsep => revert hsep; cases sep r <;> simp
        apply ih (some r) _ [r] hpushWords
        · intro c hc
          rw [List.mem_singleton.1 hc]
          exact hsepr
        · exact Or.inr ⟨r, [], rfl, rfl, rfl⟩
      · next hcc =>
        have hsepr : sep r = false := by
          next hsep => revert hsep; cases sep r <;> simp
        apply ih (some r) _ (cur ++ [r]) hwords
        · intro c hc
          rcases List.mem_append.1 hc with h1 | h2
          · exact hcur c h1
          · rw [List.mem_singleton.1 h2]
            exact hsepr
        · rcases hinv with rfl | ⟨a, t, rfl, hscan, hprev⟩
          · exact Or.inr ⟨r, [], by simp, rfl, rfl⟩
          · refine Or.inr ⟨a, t ++ [r], by simp, ?_, ?_⟩
            · apply scanOk_snoc hscan
              have hm : isLetterCaseChange (t.getLastD a) r (nextRune rest) = false := by
                cases h : isLetterCaseChange (t.getLastD a) r (nextRune rest) with
                | false => rfl
                | true =>
                  exfalso
                  apply hcc
                  rw [hprev]
                  exact h
              exact hm
            · rw [List.getLastD_concat]

theorem tokenize_words_props {s : List Char} {custom : Option (List Char)} :
    ∀ w ∈ splitByCaseWithCustomSeparators s custom,
      wordOk (Char.ofNat 0) w = true ∧ ∀ c ∈ w, sepTest custom c = false := by
  intro w hw
  unfold splitByCaseWithCustomSeparators at hw
  by_cases hs : s = []
  · rw [if_pos hs] at hw
    simp at hw
  · rw [if_neg hs] at hw
    simp only at hw
    have hmain := splitLoop_words_ok (sepTest custom) s none [] []
      (by simp) (by simp) (Or.inl rfl)
    split at hw
    · rcases List.mem_append.1 hw with h1 | h2
      · exact hmain.1 w h1
      · rw [List.mem_singleton.1 h2]
        exact ⟨wordOk_trim hmain.2.2, fun c hc => hmain.2.1 c (mem_trimSpace hc)⟩
    · exact hmain.1 w hw

/-! ## Scanning a clean word produces no split -/

theorem splitLoop_scan_word (sep : Char → Bool) :
    ∀ (u : List Char) (pc : Char) (rest : List Char) (words : List (List Char))
      (cur : List Char),
      (∀ c ∈ u, sep c = false) →
      scanOk (nextRune rest) pc u = true →
      splitLoop sep (some pc) (u ++ rest) words cur =
        splitLoop sep (some (u.getLastD pc)) rest words (cur ++ u) := by
  intro u
  induction u with
  | nil =>
    intro pc rest words cur _ _
    simp
  | cons c u2 ih =>
    intro pc rest words cur hsep hscan
    simp only [scanOk, Bool.and_eq_true] at hscan
    obtain ⟨ha, hb⟩ := hscan
    have hsc : sep c = false := hsep c (List.mem_cons_self c u2)
    have hnd : nextRune (u2 ++ rest) = nextD (nextRune rest) u2 := by
      cases u2 <;> rfl
    have hcc : isLetterCaseChange pc c (nextRune (u2 ++ rest)) = false := by
      rw [hnd]
      rw [Bool.not_eq_true'] at ha
      exact ha
    simp only [List.cons_append, splitLoop]
    split
    · next h => simp [hsc] at h
    · split
      · next h =>
        have h2 : isLetterCaseChange pc c (nextRune (u2 ++ rest)) = true := h
        rw [hcc] at h2
        exact absurd h2 (by simp)
      · exact (ih c rest words (cur ++ [c])
          (fun x hx => hsep x (List.mem_cons_of_mem c hx)) hb).trans (by
            rw [List.getLastD_cons]
            congr 1
            simp)

theorem isLCC_zero_prev (x n : Char) :
    isLetterCaseChange (Char.ofNat 0) x n = false :=
  isLCC_neutral_prev (by decide) (by decide) (by decide)

theorem splitLoop_word_start (sep : Char → Bool) {prev : Option Char} {d : Char}
    (hprev : prev = none ∨ prev = some d)
    (hneu : ∀ x n, isLetterCaseChange d x n = false)
    (a : Char) (t rest : List Char) (words : List (List Char))
    (hsep : ∀ c ∈ a :: t, sep c = false)
    (hscan : scanOk (nextRune rest) a t = true) :
    splitLoop sep prev ((a :: t) ++ rest) words [] =
      splitLoop sep (some (t.getLastD a)) rest words (a :: t) := by
  have hsa : sep a = false := hsep a (List.mem_cons_self a t)
  have hrest : splitLoop sep (some a) (t ++ rest) words ([] ++ [a]) =
      splitLoop sep (some (t.getLastD a)) rest words (a :: t) :=
    (splitLoop_scan_word sep t a rest words ([] ++ [a])
      (fun c hc => hsep c (List.mem_cons_of_mem a hc)) hscan).trans (by
        congr 1)
  rcases hprev with rfl | rfl
  · simp only [List.cons_append, splitLoop]
    split
    · next h => simp [hsa] at h
    · split
      · next h => simp at h
      · exact hrest
  · simp only [List.cons_append, splitLoop]
    split
    · next h => simp [hsa] at h
    · split
      · next h =>
        have h2 : isLetterCaseChange d a (nextRune (t ++ rest)) = true := h
        rw [hneu a (nextRune (t ++ rest))] at h2
        exact absurd h2 (by simp)
      · exact hrest

/-! ## Re-tokenizing separator-joined clean words -/

theorem getLastD_mem :
    ∀ (l : List (List Char)) (d : List Char), l ≠ [] → l.getLastD d ∈ l := by
  intro l
  induction l with
  | nil => intro d h; exact absurd rfl h
  | cons a t ih =>
    intro d _
    rw [List.getLastD_cons]
    cases t with
    | nil => simp
    | cons b t2 => exact List.mem_cons_of_mem a (ih a (by simp))

theorem dropLast_append_getLastD :
    ∀ (l : List (List Char)) (d : List Char), l ≠ [] →
      l.dropLast ++ [l.getLastD d] = l := by
  intro l
  induction l with
  | nil => intro d h; exact absurd rfl h
  | cons a t ih =>
    intro d _
    rw [List.getLastD_cons]
    cases t with
    | nil => simp
    | cons b t2 => rw [List.dropLast_cons₂, List.cons_append, ih a (by simp)]

theorem interSep_loop (sep : Char → Bool) (d : Char) (hd : sep d = true)
    (hneu : ∀ x n, isLetterCaseChange d x n = false) (hdl : d.isLower = false) :
    ∀ (vs : List (List Char)) (prev : Option Char) (words : List (List Char)),
      (∀ v ∈ vs, (∀ c ∈ v, sep c = false) ∧ wordOk (Char.ofNat 0) v = true ∧
        trimSpace v = v) →
      (prev = none ∨ prev = some d) →
      splitLoop sep prev (interSep d vs) words [] =
        (words ++ vs.dropLast, vs.getLastD []) := by
  intro vs
  induction vs with
  | nil =>
    intro prev words _ _
    simp [interSep, splitLoop]
  | cons v vs2 ih =>
    intro prev words hvs hprev
    obtain ⟨hvsep, hvok, hvtrim⟩ := hvs v (List.mem_cons_self v vs2)
    cases vs2 with
    | nil =>
      cases v with
      | nil => simp [interSep, splitLoop]
      | cons a t =>
        show splitLoop sep prev (a :: t) words [] =
          (words ++ [a :: t].dropLast, [a :: t].getLastD [])
        have h1 : splitLoop sep prev ((a :: t) ++ []) words [] =
            splitLoop sep (some (t.getLastD a)) [] words (a :: t) :=
          splitLoop_word_start sep hprev hneu a t [] words hvsep hvok
        rw [List.append_nil] at h1
        rw [h1]
        simp [splitLoop]
    | cons w vs3 =>
      have hrec : splitLoop sep (some d) (interSep d (w :: vs3)) (words ++ [v]) [] =
          ((words ++ [v]) ++ (w :: vs3).dropLast, (w :: vs3).getLastD []) :=
        ih (some d) (words ++ [v])
          (fun x hx => hvs x (List.mem_cons_of_mem v hx)) (Or.inr rfl)
      cases v with
      | nil =>
        show splitLoop sep prev (d :: interSep d (w :: vs3)) words [] = _
        simp only [splitLoop]
        rw [if_pos hd]
        have htr : trimSpace ([] : List Char) = [] := rfl
        rw [htr, hrec]
        simp [List.dropLast_cons₂, List.getLastD_cons]
      | cons a t =>
        show splitLoop sep prev ((a :: t) ++ d :: interSep d (w :: vs3)) words [] = _
        rw [splitLoop_word_start sep hprev hneu a t (d :: interSep d (w :: vs3))
          words hvsep (by
            show scanOk d a t = true
            rw [scanOk_congr hdl (show (Char.ofNat 0).isLower = false by decide) a t]
            exact hvok)]
        simp only [splitLoop]
        rw [if_pos hd]
        rw [hvtrim, hrec]
        simp [List.dropLast_cons₂, List.getLastD_cons]

theorem interSep_ne_nil {d : Char} :
    ∀ {vs : List (List Char)}, vs ≠ [] → vs.getLastD [] ≠ [] →
      interSep d vs ≠ [] := by
  intro vs h1 h2
  cases vs with
  | nil => exact absurd rfl h1
  | cons v vs2 =>
    cases vs2 with
    | nil =>
      simpa [interSep, List.getLastD_cons] using h2
    | cons w vs3 =>
      show v ++ d :: interSep d (w :: vs3) ≠ []
      simp

theorem tokenize_interSep {d : Char} (hd : isSeparator d = true)
    (hdl : d.isLower = false)
    (hneu : ∀ x n, isLetterCaseChange d x n = false) :
    ∀ (vs : List (List Char)),
      (∀ v ∈ vs, (∀ c ∈ v, isSeparator c = false) ∧
        wordOk (Char.ofNat 0) v = true ∧ trimSpace v = v) →
      vs ≠ [] → vs.getLastD [] ≠ [] →
      splitByCaseWithCustomSeparators (interSep d vs) none = vs := by
  intro vs hvs hne hlast
  unfold splitByCaseWithCustomSeparators
  rw [if_neg (interSep_ne_nil hne hlast)]
  simp only
  rw [interSep_loop (sepTest none) d hd hneu hdl vs none [] hvs (Or.inl rfl)]
  rw [if_pos (by simpa [List.length_pos] using hlast)]
  have htr : trimSpace (vs.getLastD []) = vs.getLastD [] :=
    (hvs _ (getLastD_mem vs [] hne)).2.2
  rw [htr]
  simp only [List.nil_append]
  exact dropLast_append_getLastD vs [] hne

theorem tokenize_all_lower {s : List Char} (hne : s ≠ [])
    (hsep : ∀ c ∈ s, isSeparator c = false)
    (hup : ∀ c ∈ s, c.isUpper = false)
    (htrim : trimSpace s = s) :
    splitByCaseWithCustomSeparators s none = [s] := by
  cases s with
  | nil => exact absurd rfl hne
  | cons a t =>
    unfold splitByCaseWithCustomSeparators
    rw [if_neg hne]
    simp only
    have h1 : splitLoop (sepTest none) none ((a :: t) ++ []) [] [] =
        splitLoop (sepTest none) (some (t.getLastD a)) [] [] (a :: t) :=
      splitLoop_word_start (sepTest none) (Or.inl rfl) isLCC_zero_prev a t [] []
        hsep (scanOk_of_no_upper (fun c hc => hup c (List.mem_cons_of_mem a hc)))
    rw [List.append_nil] at h1
    rw [h1]
    simp only [splitLoop]
    rw [if_pos (by simp)]
    rw [htrim]
    rfl

/-! ## Re-tokenizing separator-free strings: words merge back to the input -/

theorem splitLoop_nosep (sep : Char → Bool) :
    ∀ (rest : List Char) (pc : Char) (words : List (List Char)) (cur : List Char),
      (∀ c ∈ rest, sep c = false) →
      cur ≠ [] →
      isSpaceRune (cur.headD 'a') = false →
      pc = cur.getLastD 'a' →
      ∃ ws',
        (splitLoop sep (some pc) rest words cur).1 = words ++ ws' ∧
        ws'.flatten ++ (splitLoop sep (some pc) rest words cur).2 = cur ++ rest ∧
        (∀ w ∈ ws', w ≠ []) ∧
        (splitLoop sep (some pc) rest words cur).2 ≠ [] ∧
        (ws' = [] →
          (splitLoop sep (some pc) rest words cur).2.headD 'a' = cur.headD 'a') ∧
        ((ws'.headD []).headD 'a' = cur.headD 'a' ∨ ws' = []) ∧
        (∀ w ∈ ws'.tail, (w.headD 'a').isUpper = true) ∧
        (ws' ≠ [] →
          ((splitLoop sep (some pc) rest words cur).2.headD 'a').isUpper = true) := by
  intro rest
  induction rest with
  | nil =>
    intro pc words cur _ hcne _ _
    refine ⟨[], by simp [splitLoop], by simp [splitLoop], by simp, ?_, ?_, ?_, ?_, ?_⟩
    · simpa [splitLoop] using hcne
    · intro _
      simp [splitLoop]
    · exact Or.inr rfl
    · simp
    · intro h
      exact absurd rfl h
  | cons r rest2 ih =>
    intro pc words cur hrs hcne hch hpc
    have hsr : sep r = false := hrs r (List.mem_cons_self r rest2)
    simp only [splitLoop]
    split
    · next h => simp [hsr] at h
    · split
      · next h =>
        -- a case transition fires before r: the current word is pushed
        have hlcc : isLetterCaseChange pc r (nextRune rest2) = true := h
        have hpcc : isSpaceRune pc = false :=
          isSpaceRune_false_of_classified (isLCC_classified_prev hlcc)
        have hrup : r.isUpper = true := isLCC_upper_curr hlcc
        have hrws : isSpaceRune r = false :=
          isSpaceRune_false_of_classified (Or.inr (Or.inl hrup))
        have htr : trimSpace cur = cur := by
          apply trim_eq_self_of_edges hch
          rw [← getLastD_eq_reverse_headD, ← hpc]
          exact hpcc
        obtain ⟨ws2, h1, h2, h3, h4, h5, h6, h7, h8⟩ :=
          ih r (words ++ [trimSpace cur]) [r]
            (fun c hc => hrs c (List.mem_cons_of_mem r hc))
            (by simp) (by simpa using hrws) (by simp)
        refine ⟨cur :: ws2, ?_, ?_, ?_, h4, ?_, ?_, ?_, ?_⟩
        · rw [h1, htr]
          simp
        · have hj : (cur :: ws2).flatten = cur ++ ws2.flatten := by simp
          rw [hj, List.append_assoc, h2]
          simp
        · intro w hw
          rcases List.mem_cons.1 hw with rfl | hw2
          · exact hcne
          · exact h3 w hw2
        · intro hx
          simp at hx
        · exact Or.inl rfl
        · intro w hw
          simp only [List.tail_cons] at hw
          cases hws2 : ws2 with
          | nil =>
            rw [hws2] at hw
            simp at hw
          | cons w1 wr =>
            rw [hws2] at hw
            rcases List.mem_cons.1 hw with rfl | hw3
            · rcases h6 with h6a | h6b
              · rw [hws2] at h6a
                simp only [List.headD_cons] at h6a
                rw [h6a]
                exact hrup
              · rw [hws2] at h6b
                simp at h6b
            · rw [hws2] at h7
              exact h7 w hw3
        · intro _
          cases hws2 : ws2 with
          | nil =>
            rw [hws2] at h5
            rw [h5 rfl]
            exact hrup
          | cons w1 wr =>
            apply h8
            rw [hws2]
            simp
      · next h =>
        -- no split: r is appended to the current word
        have hhd : (cur ++ [r]).headD 'a' = cur.headD 'a' := by
          cases cur with
          | nil => exact absurd rfl hcne
          | cons x t => rfl
        obtain ⟨ws2, h1, h2, h3, h4, h5, h6, h7, h8⟩ :=
          ih r words (cur ++ [r])
            (fun c hc => hrs c (List.mem_cons_of_mem r hc))
            (by simp) (by rw [hhd]; exact hch) (by rw [List.getLastD_concat])
        refine ⟨ws2, h1, ?_, h3, h4, ?_, ?_, h7, h8⟩
        · rw [h2]
          simp
        · intro hx
          rw [h5 hx, hhd]
        · rcases h6 with h6a | h6b
          · exact Or.inl (by rw [h6a, hhd])
          · exact Or.inr h6b

theorem headD_append_right {A B : List Char} (hB : B ≠ []) (d : Char) :
    (A ++ B).reverse.headD d = B.reverse.headD d := by
  rw [List.reverse_append]
  cases hb : B.reverse with
  | nil => simp at hb; exact absurd hb hB
  | cons x t => rfl

theorem tokenize_nosep {s : List Char} (hne : s ≠ [])
    (hsep : ∀ c ∈ s, isSeparator c = false)
    (hh : isSpaceRune (s.headD 'a') = false)
    (hl : isSpaceRune (s.reverse.headD 'a') = false) :
    (splitByCaseWithCustomSeparators s none).flatten = s ∧
    (∀ w ∈ splitByCaseWithCustomSeparators s none, w ≠ []) ∧
    splitByCaseWithCustomSeparators s none ≠ [] ∧
    ((splitByCaseWithCustomSeparators s none).headD []).headD 'a' = s.headD 'a' ∧
    (∀ w ∈ (splitByCaseWithCustomSeparators s none).tail,
      (w.headD 'a').isUpper = true) := by
  cases s with
  | nil => exact absurd rfl hne
  | cons a t =>
    have hfirst : splitLoop (sepTest none) none (a :: t) [] [] =
        splitLoop (sepTest none) (some a) t [] ([] ++ [a]) := by
      simp only [splitLoop]
      split
      · next hcontra =>
        have hx : sepTest none a = false := hsep a (List.mem_cons_self a t)
        rw [hx] at hcontra
        exact absurd hcontra (by simp)
      · split
        · next hcontra => simp at hcontra
        · rfl
    have hstep : splitByCaseWithCustomSeparators (a :: t) none =
        (if (splitLoop (sepTest none) (some a) t [] ([] ++ [a])).2.length > 0 then
          (splitLoop (sepTest none) (some a) t [] ([] ++ [a])).1 ++
            [trimSpace (splitLoop (sepTest none) (some a) t [] ([] ++ [a])).2]
        else (splitLoop (sepTest none) (some a) t [] ([] ++ [a])).1) := by
      unfold splitByCaseWithCustomSeparators
      rw [if_neg hne]
      simp only
      rw [hfirst]
    obtain ⟨ws, h1, h2, h3, h4, h5, h6, h7, h8⟩ :=
      splitLoop_nosep (sepTest none) t a [] ([] ++ [a])
        (fun c hc => hsep c (List.mem_cons_of_mem a hc))
        (by simp) (by simpa using hh) (by simp)
    set res := splitLoop (sepTest none) (some a) t [] ([] ++ [a]) with hres
    rw [List.nil_append] at h1
    have hflat : ws.flatten ++ res.2 = a :: t := by
      rw [h2]
      rfl
    have hlast2 : isSpaceRune (res.2.reverse.headD 'a') = false := by
      have hx : (ws.flatten ++ res.2).reverse.headD 'a' = res.2.reverse.headD 'a' :=
        headD_append_right h4 'a'
      rw [hflat] at hx
      rw [hx] at hl
      exact hl
    have hhead2 : isSpaceRune (res.2.headD 'a') = false := by
      cases hws : ws with
      | nil =>
        rw [hws] at h5
        rw [h5 rfl]
        simpa using hh
      | cons w1 wr =>
        apply isSpaceRune_false_of_classified
        exact Or.inr (Or.inl (h8 (by rw [hws]; simp)))
    have htr2 : trimSpace res.2 = res.2 :=
      trim_eq_self_of_edges hhead2 hlast2
    have hfin : splitByCaseWithCustomSeparators (a :: t) none = ws ++ [res.2] := by
      rw [hstep, if_pos (by simpa [List.length_pos] using h4), h1, htr2]
    rw [hfin]
    refine ⟨?_, ?_, by simp, ?_, ?_⟩
    · rw [List.flatten_append]
      simpa using hflat
    · intro w hw
      rcases List.mem_append.1 hw with hw1 | hw2
      · exact h3 w hw1
      · rw [List.mem_singleton.1 hw2]
        exact h4
    · cases hws : ws with
      | nil =>
        rw [hws] at h5
        simp only [hws, List.nil_append, List.headD_cons]
        rw [h5 rfl]
        rfl
      | cons w1 wr =>
        rcases h6 with h6a | h6b
        · rw [hws] at h6a
          simp only [hws, List.cons_append, List.headD_cons]
          simpa using h6a
        · rw [hws] at h6b
          simp at h6b
    · intro w hw
      cases hws : ws with
      | nil =>
        rw [hws] at hw
        simp at hw
      | cons w1 wr =>
        rw [hws] at hw
        simp only [List.cons_append, List.tail_cons] at hw
        rcases List.mem_append.1 hw with hw1 | hw2
        · rw [hws] at h7
          exact h7 w hw1
        · rw [List.mem_singleton.1 hw2]
          exact h8 (by rw [hws]; simp)

/-! ## Join lemmas -/

theorem joinWords_false_eq (v : List (List Char)) (sep : List Char)
    (t : List Char → Nat → List Char) (hv : v ≠ []) :
    joinWords v sep false t = joinLoop sep t 0 (v.filter fun w => !w.isEmpty) := by
  unfold joinWords
  rw [if_neg hv]
  simp

theorem joinWords_true_eq (v : List (List Char)) (sep : List Char)
    (t : List Char → Nat → List Char) (hv : v ≠ []) :
    joinWords v sep true t = joinLoop sep t 0 v := by
  unfold joinWords
  rw [if_neg hv]
  simp

theorem joinLoop_congr (sep : List Char) (t1 t2 : List Char → Nat → List Char)
    (l : List (List Char)) :
    ∀ i : Nat, (∀ w j, i ≤ j → t1 w j = t2 w j) →
      joinLoop sep t1 i l = joinLoop sep t2 i l := by
  induction l with
  | nil => intro i _; rfl
  | cons w rest ih =>
    intro i h
    simp only [joinLoop]
    rw [h w i (le_refl i), ih (i + 1) (fun u j hj => h u j (by omega))]

theorem normalizeWord_ne_nil {w : List Char} (hw : w ≠ []) (b : Bool) :
    normalizeWord w b ≠ [] := by
  unfold normalizeWord
  split
  · simpa using hw
  · exact hw

/-! ## Shapes of the convention joins -/

theorem joinLoop_nil_sep (f : List Char → List Char) :
    ∀ (l : List (List Char)) (i : Nat),
      joinLoop [] (fun w _ => f w) i l = (l.map f).flatten := by
  intro l
  induction l with
  | nil => intro i; rfl
  | cons w rest ih =>
    intro i
    simp only [joinLoop]
    rw [if_neg (by simp)]
    rw [ih (i + 1)]
    simp

theorem joinLoop_sep_eq (d : Char) (f : List Char → List Char) :
    ∀ (l : List (List Char)) (i : Nat),
      joinLoop [d] (fun w _ => f w) (i + 1) l =
        (l.map (fun v => d :: f v)).flatten := by
  intro l
  induction l with
  | nil => intro i; rfl
  | cons w rest ih =>
    intro i
    simp only [joinLoop]
    rw [if_pos (by simp)]
    rw [ih (i + 1)]
    simp

theorem flatten_cons_sep (d : Char) (f : List Char → List Char) :
    ∀ (l : List (List Char)) (w : List Char),
      ((w :: l).map (fun v => d :: f v)).flatten =
        d :: interSep d (f w :: l.map f) := by
  intro l
  induction l with
  | nil =>
    intro w
    simp [interSep]
  | cons w2 rest ih =>
    intro w
    show (d :: f w) ++ ((w2 :: rest).map (fun v => d :: f v)).flatten = _
    rw [ih w2]
    rfl

theorem joinLoop_sep_top (d : Char) (f : List Char → List Char) :
    ∀ (l : List (List Char)),
      joinLoop [d] (fun w _ => f w) 0 l = interSep d (l.map f) := by
  intro l
  cases l with
  | nil => rfl
  | cons w rest =>
    simp only [joinLoop]
    rw [if_neg (by simp)]
    rw [joinLoop_sep_eq d f rest 0]
    cases rest with
    | nil => simp [interSep]
    | cons w2 rest2 =>
      rw [flatten_cons_sep d f rest2 w2]
      rfl

theorem kebab_words_join (words : List (List Char)) (d : Char) :
    joinWords words [d] true (fun word _ => word.map Char.toLower) =
      interSep d (words.map (fun w => w.map Char.toLower)) := by
  by_cases hw : words = []
  · rw [hw]
    rfl
  · rw [joinWords_true_eq _ _ _ hw]
    exact joinLoop_sep_top d (fun w => w.map Char.toLower) words

theorem kebab_str_eq (s : List Char) :
    KebabCaseStr s [] =
      interSep '-' ((splitByCaseWithCustomSeparators s none).map
        (fun w => w.map Char.toLower)) :=
  kebab_words_join _ '-'

theorem snake_str_eq (s : List Char) :
    SnakeCaseStr s =
      interSep '_' ((splitByCaseWithCustomSeparators s none).map
        (fun w => w.map Char.toLower)) :=
  kebab_words_join _ '_'

theorem train_str_eq (s : List Char) :
    TrainCaseStr s false =
      interSep '-' (((splitByCaseWithCustomSeparators s none).filter
        (fun w => !w.isEmpty)).map capitalizeWord) := by
  unfold TrainCaseStr
  by_cases hw : splitByCaseWithCustomSeparators s none = []
  · rw [hw]
    rfl
  · rw [joinWords_false_eq _ _ _ hw]
    exact joinLoop_sep_top '-' capitalizeWord _

theorem pascal_str_eq (s : List Char) :
    PascalCaseStr s false =
      (((splitByCaseWithCustomSeparators s none).filter
        (fun w => !w.isEmpty)).map capitalizeWord).flatten := by
  unfold PascalCaseStr
  by_cases hw : splitByCaseWithCustomSeparators s none = []
  · rw [hw]
    rfl
  · rw [joinWords_false_eq _ _ _ hw]
    exact joinLoop_nil_sep capitalizeWord _ 0

theorem flat_str_eq (s : List Char) :
    FlatCaseStr s =
      ((splitByCaseWithCustomSeparators s none).map
        (fun w => w.map Char.toLower)).flatten := by
  unfold FlatCaseStr KebabCaseStr
  by_cases hw : splitByCaseWithCustomSeparators s none = []
  · rw [hw]
    rfl
  · rw [joinWords_true_eq _ _ _ hw]
    exact joinLoop_nil_sep (fun w => w.map Char.toLower) _ 0

/-! ## Preservation of word cleanliness under the per-word transforms -/

theorem tokenize_words_trimmed {s : List Char} {custom : Option (List Char)} :
    ∀ w ∈ splitByCaseWithCustomSeparators s custom, trimSpace w = w := by
  intro w hw
  unfold splitByCaseWithCustomSeparators at hw
  by_cases hs : s = []
  · rw [if_pos hs] at hw
    simp at hw
  · rw [if_neg hs] at hw
    simp only at hw
    split at hw
    · rcases List.mem_append.1 hw with h1 | h2
      · exact splitLoop_trimmed (sepTest custom) s none [] [] (by simp) w h1
      · rw [List.mem_singleton.1 h2]
        exact trimSpace_idem _
    · exact splitLoop_trimmed (sepTest custom) s none [] [] (by simp) w hw

theorem edges_of_trim_fixed {w : List Char} (h : trimSpace w = w) :
    isSpaceRune (w.headD 'a') = false ∧
    isSpaceRune (w.reverse.headD 'a') = false := by
  constructor
  · rw [← h]
    exact (trim_edges w).1
  · rw [← h]
    exact (trim_edges w).2

theorem headD_append_left {A : List Char} (hA : A ≠ []) (B : List Char) (d : Char) :
    (A ++ B).headD d = A.headD d := by
  cases A with
  | nil => exact absurd rfl hA
  | cons x t => rfl

theorem trim_fixed_append {A B : List Char} (hA : trimSpace A = A)
    (hB : trimSpace B = B) : trimSpace (A ++ B) = A ++ B := by
  obtain ⟨ha1, ha2⟩ := edges_of_trim_fixed hA
  obtain ⟨hb1, hb2⟩ := edges_of_trim_fixed hB
  apply trim_eq_self_of_edges
  · cases A with
    | nil => simpa using hb1
    | cons c t => simpa using ha1
  · cases hB2 : B with
    | nil =>
      rw [List.append_nil]
      exact ha2
    | cons b t2 =>
      rw [headD_append_right (by simp [hB2]) 'a']
      rw [hB2] at hb2
      exact hb2

theorem flatten_trim_fixed {l : List (List Char)}
    (h : ∀ v ∈ l, trimSpace v = v) : trimSpace l.flatten = l.flatten := by
  induction l with
  | nil => rfl
  | cons v ls ih =>
    show trimSpace (v ++ ls.flatten) = v ++ ls.flatten
    exact trim_fixed_append (h v (List.mem_cons_self v ls))
      (ih fun u hu => h u (List.mem_cons_of_mem v hu))

theorem trim_fixed_map_toLower {w : List Char} (h : trimSpace w = w) :
    trimSpace (w.map Char.toLower) = w.map Char.toLower := by
  obtain ⟨h1, h2⟩ := edges_of_trim_fixed h
  apply trim_eq_self_of_edges
  · cases w with
    | nil => decide
    | cons c t =>
      simp only [List.map_cons, List.headD_cons] at h1 ⊢
      rw [isSpaceRune_toLower]
      exact h1
  · rw [← List.map_reverse]
    cases hw : w.reverse with
    | nil => decide
    | cons c t =>
      rw [hw] at h2
      simp only [List.map_cons, List.headD_cons] at h2 ⊢
      rw [isSpaceRune_toLower]
      exact h2

theorem trim_fixed_cap {w : List Char} (h : trimSpace w = w) :
    trimSpace (capitalizeWord w) = capitalizeWord w := by
  obtain ⟨h1, h2⟩ := edges_of_trim_fixed h
  apply trim_eq_self_of_edges
  · cases w with
    | nil => decide
    | cons c t =>
      show isSpaceRune ((Char.toUpper c :: t).headD 'a') = false
      simp only [List.headD_cons] at h1 ⊢
      rw [isSpaceRune_toUpper]
      exact h1
  · cases w with
    | nil => decide
    | cons c t =>
      cases t with
      | nil =>
        show isSpaceRune ([Char.toUpper c].reverse.headD 'a') = false
        simp only [List.reverse_singleton, List.headD_cons]
        rw [isSpaceRune_toUpper]
        simpa using h2
      | cons b t2 =>
        show isSpaceRune ((Char.toUpper c :: b :: t2).reverse.headD 'a') = false
        rw [List.reverse_cons, headD_append_left (by simp) _ 'a']
        rw [List.reverse_cons] at h2
        rw [headD_append_left (by simp) _ 'a'] at h2
        exact h2

theorem no_upper_map_toLower (w : List Char) :
    ∀ c ∈ w.map Char.toLower, c.isUpper = false := by
  intro c hc
  obtain ⟨x, _, rfl⟩ := List.mem_map.1 hc
  exact isUpper_toLower x

theorem no_sep_map_toLower {w : List Char}
    (h : ∀ c ∈ w, isSeparator c = false) :
    ∀ c ∈ w.map Char.toLower, isSeparator c = false := by
  intro c hc
  obtain ⟨x, hx, rfl⟩ := List.mem_map.1 hc
  rw [isSeparator_toLower]
  exact h x hx

theorem no_sep_cap {w : List Char} (h : ∀ c ∈ w, isSeparator c = false) :
    ∀ c ∈ capitalizeWord w, isSeparator c = false := by
  cases w with
  | nil => intro c hc; simp [capitalizeWord] at hc
  | cons x t =>
    intro c hc
    rcases List.mem_cons.1 hc with rfl | hc2
    · rw [isSeparator_toUpper]
      exact h x (List.mem_cons_self x t)
    · exact h c (List.mem_cons_of_mem x hc2)

theorem map_toLower_idem (w : List Char) :
    (w.map Char.toLower).map Char.toLower = w.map Char.toLower := by
  rw [List.map_map]
  exact List.map_congr_left (fun c _ => toLower_toLower c)

theorem cap_of_head_upper {w : List Char} (h : (w.headD 'a').isUpper = true) :
    capitalizeWord w = w := by
  cases w with
  | nil => exact absurd h (by decide)
  | cons c t =>
    simp only [List.headD_cons] at h
    show Char.toUpper c :: t = c :: t
    rw [toUpper_of_isUpper h]

theorem cap_cap (w : List Char) :
    capitalizeWord (capitalizeWord w) = capitalizeWord w := by
  cases w with
  | nil => rfl
  | cons c t =>
    show Char.toUpper (Char.toUpper c) :: t = Char.toUpper c :: t
    rw [toUpper_toUpper]

theorem getLastD_map (f : List Char → List Char) :
    ∀ (l : List (List Char)) (d : List Char),
      (l.map f).getLastD (f d) = f (l.getLastD d) := by
  intro l
  induction l with
  | nil => intro d; rfl
  | cons a t ih =>
    intro d
    rw [List.map_cons, List.getLastD_cons, List.getLastD_cons]
    exact ih a

theorem getLast?_cond {l : List (List Char)} (h : l.getLast? ≠ some []) :
    l = [] ∨ (l ≠ [] ∧ l.getLastD [] ≠ []) := by
  cases hl : l with
  | nil => exact Or.inl rfl
  | cons a t =>
    refine Or.inr ⟨by simp, fun hbad => h ?_⟩
    rw [hl]
    rw [List.getLastD_eq_getLast?] at hbad
    cases hg : (a :: t).getLast? with
    | none =>
      rw [List.getLast?_eq_none_iff] at hg
      simp at hg
    | some v =>
      rw [hg] at hbad
      simp only [Option.getD_some] at hbad
      rw [hbad]

/-! ## Idempotence of the conventions on their own output -/

theorem kebab_generic (d : Char) (hd : isSeparator d = true)
    (hdl : d.isLower = false)
    (hneu : ∀ y n, isLetterCaseChange d y n = false) (x : List Char)
    (hc : (splitByCaseWithCustomSeparators x none).getLast? ≠ some []) :
    interSep d ((splitByCaseWithCustomSeparators
        (interSep d ((splitByCaseWithCustomSeparators x none).map
          (fun w => w.map Char.toLower))) none).map
        (fun w => w.map Char.toLower)) =
      interSep d ((splitByCaseWithCustomSeparators x none).map
        (fun w => w.map Char.toLower)) := by
  rcases getLast?_cond hc with hnil | ⟨hne, hlast⟩
  · rw [hnil]
    rfl
  · set tok := splitByCaseWithCustomSeparators x none with htok
    set vs := tok.map (fun w => w.map Char.toLower) with hvs
    have hvs_ne : vs ≠ [] := by
      rw [hvs]
      simpa using hne
    have hvs_last : vs.getLastD [] ≠ [] := by
      rw [hvs]
      have hmap := getLastD_map (fun w => w.map Char.toLower) tok []
      simp only [List.map_nil] at hmap
      rw [hmap]
      intro heq
      apply hlast
      cases h2 : tok.getLastD [] with
      | nil => rfl
      | cons c t =>
        rw [h2] at heq
        simp at heq
    have hprops : ∀ v ∈ vs, (∀ c ∈ v, isSeparator c = false) ∧
        wordOk (Char.ofNat 0) v = true ∧ trimSpace v = v := by
      intro v hv
      rw [hvs] at hv
      obtain ⟨w, hw, rfl⟩ := List.mem_map.1 hv
      have hp := tokenize_words_props w hw
      exact ⟨no_sep_map_toLower (fun c hc2 => hp.2 c hc2),
        wordOk_of_no_upper (no_upper_map_toLower w),
        trim_fixed_map_toLower (tokenize_words_trimmed w hw)⟩
    have htokv : splitByCaseWithCustomSeparators (interSep d vs) none = vs :=
      tokenize_interSep hd hdl hneu vs hprops hvs_ne hvs_last
    rw [htokv]
    congr 1
    rw [hvs, List.map_map]
    exact List.map_congr_left (fun w _ => map_toLower_idem w)

theorem kebab_idem (x : List Char)
    (hc : (splitByCaseWithCustomSeparators x none).getLast? ≠ some []) :
    KebabCaseStr (KebabCaseStr x []) [] = KebabCaseStr x [] := by
  rw [kebab_str_eq x]
  rw [kebab_str_eq (interSep '-' ((splitByCaseWithCustomSeparators x none).map
    (fun w => w.map Char.toLower)))]
  exact kebab_generic '-' (by decide) (by decide)
    (fun y n => isLCC_neutral_prev (by decide) (by decide) (by decide)) x hc

theorem snake_idem (x : List Char)
    (hc : (splitByCaseWithCustomSeparators x none).getLast? ≠ some []) :
    SnakeCaseStr (SnakeCaseStr x) = SnakeCaseStr x := by
  rw [snake_str_eq x]
  rw [snake_str_eq (interSep '_' ((splitByCaseWithCustomSeparators x none).map
    (fun w => w.map Char.toLower)))]
  exact kebab_generic '_' (by decide) (by decide)
    (fun y n => isLCC_neutral_prev (by decide) (by decide) (by decide)) x hc

theorem train_idem (x : List Char) :
    TrainCaseStr (TrainCaseStr x false) false = TrainCaseStr x false := by
  set tok := splitByCaseWithCustomSeparators x none with htok
  set F := tok.filter (fun w => !w.isEmpty) with hF
  set Fcap := F.map capitalizeWord with hFcap
  have hFprops : ∀ w ∈ F, w ≠ [] ∧ wordOk (Char.ofNat 0) w = true ∧
      trimSpace w = w ∧ (∀ c ∈ w, isSeparator c = false) := by
    intro w hw
    rw [hF, List.mem_filter] at hw
    obtain ⟨hw1, hw2⟩ := hw
    exact ⟨by simpa using hw2, (tokenize_words_props w hw1).1,
      tokenize_words_trimmed w hw1,
      fun c hc => (tokenize_words_props w hw1).2 c hc⟩
  have hcap_props : ∀ v ∈ Fcap, (∀ c ∈ v, isSeparator c = false) ∧
      wordOk (Char.ofNat 0) v = true ∧ trimSpace v = v := by
    intro v hv
    rw [hFcap] at hv
    obtain ⟨w, hw, rfl⟩ := List.mem_map.1 hv
    obtain ⟨hwne, hwok, hwtrim, hwsep⟩ := hFprops w hw
    exact ⟨no_sep_cap hwsep, wordOk_cap hwok, trim_fixed_cap hwtrim⟩
  have hFcap_ne : ∀ v ∈ Fcap, v ≠ [] := by
    intro v hv
    rw [hFcap] at hv
    obtain ⟨w, hw, rfl⟩ := List.mem_map.1 hv
    obtain ⟨hwne, _, _, _⟩ := hFprops w hw
    cases w with
    | nil => exact absurd rfl hwne
    | cons c t => simp [capitalizeWord]
  have hTx : TrainCaseStr x false = interSep '-' Fcap := train_str_eq x
  by_cases hFc : Fcap = []
  · rw [hTx, hFc]
    rfl
  · have hFlast : Fcap.getLastD [] ≠ [] :=
      hFcap_ne _ (getLastD_mem Fcap [] hFc)
    have htokT : splitByCaseWithCustomSeparators (interSep '-' Fcap) none = Fcap :=
      tokenize_interSep (by decide) (by decide)
        (fun y n => isLCC_neutral_prev (by decide) (by decide) (by decide))
        Fcap hcap_props hFc hFlast
    rw [hTx]
    rw [train_str_eq (interSep '-' Fcap), htokT]
    have hfilt : Fcap.filter (fun w => !w.isEmpty) = Fcap := by
      rw [List.filter_eq_self]
      intro v hv
      simpa using hFcap_ne v hv
    rw [hfilt]
    congr 1
    rw [hFcap, List.map_map]
    exact List.map_congr_left (fun w _ => cap_cap w)

theorem pascal_str_of_nosep {s1 : List Char} (hne : s1 ≠ [])
    (hsep : ∀ c ∈ s1, isSeparator c = false)
    (hh : isSpaceRune (s1.headD 'a') = false)
    (hl : isSpaceRune (s1.reverse.headD 'a') = false) :
    PascalCaseStr s1 false = Char.toUpper (s1.headD 'a') :: s1.tail := by
  obtain ⟨hflat, hwne, htne, hhead, htail⟩ := tokenize_nosep hne hsep hh hl
  rw [pascal_str_eq s1]
  have hfilt : (splitByCaseWithCustomSeparators s1 none).filter
      (fun w => !w.isEmpty) = splitByCaseWithCustomSeparators s1 none := by
    rw [List.filter_eq_self]
    intro w hw
    simpa using hwne w hw
  rw [hfilt]
  cases htk : splitByCaseWithCustomSeparators s1 none with
  | nil => exact absurd htk htne
  | cons v vs =>
    rw [htk] at hflat hwne hhead htail
    have hvne : v ≠ [] := hwne v (List.mem_cons_self v vs)
    cases hv : v with
    | nil => exact absurd hv hvne
    | cons hv1 tv =>
      rw [hv] at hflat hhead
      simp only [List.headD_cons] at hhead
      have hmapcap : vs.map capitalizeWord = vs := by
        refine (List.map_congr_left ?_).trans (List.map_id vs)
        intro w hw
        exact cap_of_head_upper (htail w (by simpa using hw))
      simp only [List.map_cons, List.flatten_cons, capitalizeWord]
      rw [hmapcap]
      rw [← hhead]
      have hs1 : s1 = hv1 :: (tv ++ vs.flatten) := by
        rw [← hflat]
        simp
      rw [hs1]
      simp

theorem pascal_P_props (x : List Char) :
    (∀ c ∈ PascalCaseStr x false, isSeparator c = false) ∧
    trimSpace (PascalCaseStr x false) = PascalCaseStr x false ∧
    (PascalCaseStr x false = [] ∨
      (PascalCaseStr x false ≠ [] ∧
        ∃ cu, (PascalCaseStr x false).headD 'a' = Char.toUpper cu)) := by
  rw [pascal_str_eq x]
  set tok := splitByCaseWithCustomSeparators x none with htok
  set F := tok.filter (fun w => !w.isEmpty) with hF
  have hFmem : ∀ w ∈ F, w ∈ tok ∧ w ≠ [] := by
    intro w hw
    rw [hF, List.mem_filter] at hw
    exact ⟨hw.1, by simpa using hw.2⟩
  refine ⟨?_, ?_, ?_⟩
  · intro c hc
    rw [List.mem_flatten] at hc
    obtain ⟨v, hv, hcv⟩ := hc
    obtain ⟨w, hw, rfl⟩ := List.mem_map.1 hv
    exact no_sep_cap
      (fun y hy => (tokenize_words_props w (hFmem w hw).1).2 y hy) c hcv
  · apply flatten_trim_fixed
    intro v hv
    obtain ⟨w, hw, rfl⟩ := List.mem_map.1 hv
    exact trim_fixed_cap (tokenize_words_trimmed w (hFmem w hw).1)
  · cases hFc : F with
    | nil =>
      left
      rfl
    | cons u1 F2 =>
      right
      have hu1 : u1 ≠ [] := (hFmem u1 (by rw [hFc]; simp)).2
      cases hu : u1 with
      | nil => exact absurd hu hu1
      | cons cu tu =>
        constructor
        · simp [capitalizeWord]
        · exact ⟨cu, by simp [capitalizeWord]⟩

theorem pascal_idem (x : List Char) :
    PascalCaseStr (PascalCaseStr x false) false = PascalCaseStr x false := by
  obtain ⟨hsep, htrim, hstruct⟩ := pascal_P_props x
  rcases hstruct with hemp | ⟨hPne, cu, hcu⟩
  · rw [hemp]
    rfl
  · obtain ⟨h1, h2⟩ := edges_of_trim_fixed htrim
    rw [pascal_str_of_nosep hPne hsep h1 h2]
    rw [hcu, toUpper_toUpper, ← hcu]
    cases hP : PascalCaseStr x false with
    | nil => exact absurd hP hPne
    | cons p ps => simp

theorem camel_idem (x : List Char) :
    CamelCaseStr (CamelCaseStr x false) false = CamelCaseStr x false := by
  obtain ⟨hsep, htrim, _⟩ := pascal_P_props x
  show lowercaseWord (PascalCaseStr (lowercaseWord (PascalCaseStr x false)) false) =
    lowercaseWord (PascalCaseStr x false)
  cases hP : PascalCaseStr x false with
  | nil => rfl
  | cons p ps =>
    rw [hP] at hsep htrim
    simp only [lowercaseWord]
    have hsep2 : ∀ c ∈ Char.toLower p :: ps, isSeparator c = false := by
      intro c hc
      rcases List.mem_cons.1 hc with rfl | hc2
      · rw [isSeparator_toLower]
        exact hsep p (List.mem_cons_self p ps)
      · exact hsep c (List.mem_cons_of_mem p hc2)
    obtain ⟨h1, h2⟩ := edges_of_trim_fixed htrim
    have h1' : isSpaceRune ((Char.toLower p :: ps).headD 'a') = false := by
      simp only [List.headD_cons] at h1 ⊢
      rw [isSpaceRune_toLower]
      exact h1
    have h2' : isSpaceRune ((Char.toLower p :: ps).reverse.headD 'a') = false := by
      cases hps : ps with
      | nil =>
        simp only [List.reverse_singleton, List.headD_cons]
        rw [isSpaceRune_toLower]
        rw [hps] at h1
        simpa using h1
      | cons q qs =>
        rw [List.reverse_cons, headD_append_left (by simp [hps]) _ 'a']
        rw [List.reverse_cons, headD_append_left (by simp [hps]) _ 'a'] at h2
        rw [hps] at h2
        exact h2
    rw [pascal_str_of_nosep (by simp) hsep2 h1' h2']
    simp only [List.headD_cons, List.tail_cons, lowercaseWord]
    rw [toLower_toUpper, toLower_toLower]

theorem flat_idem (x : List Char) :
    FlatCaseStr (FlatCaseStr x) = FlatCaseStr x := by
  rw [flat_str_eq x]
  set tok := splitByCaseWithCustomSeparators x none with htok
  set F := (tok.map (fun w => w.map Char.toLower)).flatten with hFdef
  have hchar : ∀ c ∈ F, c.isUpper = false ∧ isSeparator c = false ∧
      Char.toLower c = c := by
    intro c hc
    rw [hFdef, List.mem_flatten] at hc
    obtain ⟨v, hv, hcv⟩ := hc
    obtain ⟨w, hw, rfl⟩ := List.mem_map.1 hv
    obtain ⟨y, hy, rfl⟩ := List.mem_map.1 hcv
    refine ⟨isUpper_toLower y, ?_, toLower_toLower y⟩
    rw [isSeparator_toLower]
    exact (tokenize_words_props w hw).2 y hy
  by_cases hFe : F = []
  · rw [hFe]
    rfl
  · have htrimF : trimSpace F = F := by
      rw [hFdef]
      apply flatten_trim_fixed
      intro v hv
      obtain ⟨w, hw, rfl⟩ := List.mem_map.1 hv
      exact trim_fixed_map_toLower (tokenize_words_trimmed w hw)
    have htokF : splitByCaseWithCustomSeparators F none = [F] :=
      tokenize_all_lower hFe (fun c hc => (hchar c hc).2.1)
        (fun c hc => (hchar c hc).1) htrimF
    rw [flat_str_eq F, htokF]
    simp only [List.map_cons, List.map_nil, List.flatten_cons, List.flatten_nil,
      List.append_nil]
    exact (List.map_congr_left (fun c hc => (hchar c hc).2.2)).trans (List.map_id F)

/-! ## Claim theorems: tokenizer boundary rules and option handling -/

/-- Claim C1: the tokenizer places a case-transition boundary before the
current character exactly when one of three pairwise rules holds — lower
letter followed by upper letter; upper letter followed by an upper letter
whose next character is a lower letter; or digit followed by upper letter —
and no other adjacent pair causes a boundary.  Consequently
`tokenize "XMLHttpRequest" = ["XML", "Http", "Request"]`,
`tokenize "IOError" = ["IO", "Error"]`, `tokenize "iPhone" = ["i", "Phone"]`,
and `tokenize "HTML5Parser" = ["HTML5", "Parser"]` (no split before the digit
itself). -/
theorem case_transition_boundary_rule :
    (∀ prev curr next : Char,
      isLetterCaseChange prev curr next = true ↔
        ((prev.isLower = true ∧ curr.isUpper = true) ∨
         (prev.isUpper = true ∧ curr.isUpper = true ∧ next.isLower = true) ∨
         (prev.isDigit = true ∧ curr.isUpper = true))) ∧
    SplitByCase "XMLHttpRequest".toList =
      ["XML".toList, "Http".toList, "Request".toList] ∧
    SplitByCase "IOError".toList = ["IO".toList, "Error".toList] ∧
    SplitByCase "iPhone".toList = ["i".toList, "Phone".toList] ∧
    SplitByCase "HTML5Parser".toList = ["HTML5".toList, "Parser".toList] := by
  exact ⟨isLCC_iff, by decide, by decide, by decide, by decide⟩

/-- Claim C2: a supplied separator override replaces the default separator set
entirely rather than merging with it (overriding with the default set itself is
the same as no override), and an empty override set means splitting happens
only on case transitions.  In particular
`tokenize("hello,world-test_case", {','}) = ["hello", "world-test_case"]` and
`tokenize("hello-world_testCase", {}) = ["hello-world_test", "Case"]`. -/
theorem separator_override_replaces :
    (∀ s : List Char, SplitByCaseWith s [] = splitByCaseOnly s) ∧
    (∀ s : List Char, SplitByCaseWith s defaultSeparators = SplitByCase s) ∧
    SplitByCaseWith "hello,world-test_case".toList [','] =
      ["hello".toList, "world-test_case".toList] ∧
    SplitByCaseWith "hello-world_testCase".toList [] =
      ["hello-world_test".toList, "Case".toList] := by
  refine ⟨?_, ?_, by decide, by decide⟩
  · intro s
    have h : sepTest (some []) = fun _ => false := funext fun r => rfl
    unfold SplitByCaseWith splitByCaseWithCustomSeparators splitByCaseOnly
    rw [h]
  · intro s
    have h : sepTest (some defaultSeparators) = sepTest none := funext fun r => rfl
    unfold SplitByCaseWith SplitByCase splitByCaseWithCustomSeparators
    rw [h]

/-- Claim C3: adjacent separators produce empty words that the tokenizer
preserves, and joining with the preserve-empty flag false (as Pascal, Camel and
Train do) drops those empty entries before the per-word transform and join:
`tokenize "hello--world" = ["hello", "", "world"]` while
`PascalCase "hello--world" = "HelloWorld"`. -/
theorem empty_words_preserved_then_filtered :
    SplitByCase "hello--world".toList = ["hello".toList, [], "world".toList] ∧
    (∀ (words : List (List Char)) (sep : List Char)
        (t : List Char → Nat → List Char),
      joinWords words sep false t =
        joinWords (words.filter fun w => !w.isEmpty) sep true t) ∧
    PascalCaseStr "hello--world".toList false = "HelloWorld".toList ∧
    PascalCaseWords ["hello".toList, [], "world".toList] false =
      "HelloWorld".toList ∧
    CamelCaseWords ["hello".toList, [], "world".toList] false =
      "helloWorld".toList ∧
    TrainCaseWords ["hello".toList, [], "world".toList] false =
      "Hello-World".toList := by
  refine ⟨by decide, ?_, by decide, by decide, by decide, by decide⟩
  intro words sep t
  by_cases h : words = []
  · subst h; rfl
  · by_cases h2 : words.filter (fun w => !w.isEmpty) = []
    · simp [joinWords, h, h2, joinLoop]
    · simp [joinWords, h, h2]

/-- Claim C4: every word emitted by the tokenizer is whitespace-trimmed at
both edges, for every input and active separator set; the end-of-scan flush
appends a final entry exactly when the trailing buffer is non-empty; and a
purely-separator input produces exactly one (empty) entry per separator,
with no extra trailing empty entry. -/
theorem emitted_words_trimmed_and_flush :
    (∀ (custom : Option (List Char)) (s w : List Char),
      w ∈ splitByCaseWithCustomSeparators s custom → trimSpace w = w) ∧
    (∀ (custom : Option (List Char)) (s : List Char), s ≠ [] →
      splitByCaseWithCustomSeparators s custom =
        (splitLoop (sepTest custom) none s [] []).1 ++
          (if (splitLoop (sepTest custom) none s [] []).2 = [] then []
           else [trimSpace (splitLoop (sepTest custom) none s [] []).2])) ∧
    (∀ (custom : Option (List Char)) (s : List Char), s ≠ [] →
      (∀ c ∈ s, sepTest custom c = true) →
      splitByCaseWithCustomSeparators s custom = List.replicate s.length []) := by
  refine ⟨?_, ?_, ?_⟩
  · intro custom s w hw
    unfold splitByCaseWithCustomSeparators at hw
    by_cases hs : s = []
    · rw [if_pos hs] at hw
      simp at hw
    · rw [if_neg hs] at hw
      simp only at hw
      split at hw
      · rcases List.mem_append.1 hw with h1 | h2
        · exact splitLoop_trimmed (sepTest custom) s none [] [] (by simp) w h1
        · rw [List.mem_singleton.1 h2]
          exact trimSpace_idem _
      · exact splitLoop_trimmed (sepTest custom) s none [] [] (by simp) w hw
  · intro custom s hs
    unfold splitByCaseWithCustomSeparators
    rw [if_neg hs]
    simp only
    by_cases h2 : (splitLoop (sepTest custom) none s [] []).2 = []
    · rw [if_neg (by simp [h2]), if_pos h2, List.append_nil]
    · rw [if_pos (by simpa [List.length_pos] using h2), if_neg h2]
  · intro custom s hs hsep
    unfold splitByCaseWithCustomSeparators
    rw [if_neg hs]
    simp only
    rw [splitLoop_all_sep (sepTest custom) s none [] hsep]
    simp

/-- Witness for C4 at concrete inputs: `"hello"` is an emitted, trimmed word
of `tokenize "hello--world"`, and `tokenize "--"` is two empty entries. -/
theorem emitted_words_trimmed_and_flush_witness :
    trimSpace "hello".toList = "hello".toList ∧
    splitByCaseWithCustomSeparators "--".toList none =
      List.replicate "--".toList.length [] :=
  ⟨emitted_words_trimmed_and_flush.1 none "hello--world".toList "hello".toList
      (by decide),
   emitted_words_trimmed_and_flush.2.2 none "--".toList (by decide) (by decide)⟩

/-- Claim C7: with normalize on, each word is fully lowercased before the
capitalize step; with it off, the word beyond its first character is left
untouched.  `PascalCase("XMLHttpRequest", normalize) = "XmlHttpRequest"` and
without normalize `= "XMLHttpRequest"`. -/
theorem normalize_flag_semantics :
    (∀ w : List Char, normalizeWord w true = w.map Char.toLower) ∧
    (∀ w : List Char, normalizeWord w false = w) ∧
    (∀ w : List Char, (capitalizeWord (normalizeWord w false)).tail = w.tail) ∧
    PascalCaseStr "XMLHttpRequest".toList true = "XmlHttpRequest".toList ∧
    PascalCaseStr "XMLHttpRequest".toList false = "XMLHttpRequest".toList := by
  refine ⟨fun w => rfl, fun w => rfl, ?_, by decide, by decide⟩
  intro w
  cases w <;> rfl

/-- Claim C5 (amended): KebabCase and SnakeCase re-serialize their own output
for every string whose default tokenization does not end in an empty word
(the unconditional claim fails, e.g. at `"a--"`); PascalCase, CamelCase,
TrainCase and FlatCase re-serialize their own output for every string. -/
theorem convention_idempotence :
    (∀ x : List Char, (SplitByCase x).getLast? ≠ some [] →
      KebabCaseStr (KebabCaseStr x []) [] = KebabCaseStr x [] ∧
      SnakeCaseStr (SnakeCaseStr x) = SnakeCaseStr x) ∧
    (∀ x : List Char,
      PascalCaseStr (PascalCaseStr x false) false = PascalCaseStr x false) ∧
    (∀ x : List Char,
      CamelCaseStr (CamelCaseStr x false) false = CamelCaseStr x false) ∧
    (∀ x : List Char,
      TrainCaseStr (TrainCaseStr x false) false = TrainCaseStr x false) ∧
    (∀ x : List Char, FlatCaseStr (FlatCaseStr x) = FlatCaseStr x) :=
  ⟨fun x hc => ⟨kebab_idem x hc, snake_idem x hc⟩,
   pascal_idem, camel_idem, train_idem, flat_idem⟩

/-- Counterexample to claim C5 as stated: at `x = "a--"` the tokenization is
`["a", ""]`, so `KebabCase x = "a-"`, but `KebabCase "a-" = "a"`. -/
theorem kebab_not_idempotent_cex :
    KebabCaseStr (KebabCaseStr "a--".toList []) [] ≠ KebabCaseStr "a--".toList [] := by
  decide

/-- Witness for C5 at a concrete input whose tokenization has no trailing
empty word. -/
theorem convention_idempotence_witness :
    (SplitByCase "hello-world".toList).getLast? ≠ some [] ∧
    KebabCaseStr (KebabCaseStr "hello-world".toList []) [] =
      KebabCaseStr "hello-world".toList [] :=
  ⟨by decide,
   (convention_idempotence.1 "hello-world".toList (by decide)).1⟩

/-- Claim C6: CamelCase produces the same result as PascalCase except that
the first retained word's leading character is lowercased instead of
capitalized; for string input, CamelCase(s) is PascalCase(s) with its first
character lowercased. -/
theorem camel_is_pascal_with_lower_first :
    (∀ (s : List Char) (b : Bool),
      CamelCaseStr s b = lowercaseWord (PascalCaseStr s b)) ∧
    (∀ (v : List (List Char)) (b : Bool),
      CamelCaseWords v b = lowercaseWord (PascalCaseWords v b)) := by
  constructor
  · intro s b
    rfl
  · intro v b
    by_cases hv : v = []
    · subst hv
      rfl
    · have hC : CamelCaseWords v b =
          joinLoop []
            (fun word i => if i = 0 then lowercaseWord (normalizeWord word b)
              else capitalizeWord (normalizeWord word b)) 0
            (v.filter fun w => !w.isEmpty) := by
        unfold CamelCaseWords
        rw [if_neg hv, joinWords_false_eq _ _ _ hv]
      have hP : PascalCaseWords v b =
          joinLoop [] (fun word _ => capitalizeWord (normalizeWord word b)) 0
            (v.filter fun w => !w.isEmpty) := by
        unfold PascalCaseWords
        exact joinWords_false_eq _ _ _ hv
      rw [hC, hP]
      have hFne : ∀ w ∈ v.filter (fun w => !w.isEmpty), w ≠ [] := by
        intro w hwF
        have := List.of_mem_filter hwF
        simpa using this
      cases hF : v.filter (fun w => !w.isEmpty) with
      | nil => rfl
      | cons w rest =>
        have hw : w ≠ [] := by
          apply hFne
          rw [hF]
          simp
        obtain ⟨d, ds, hnd⟩ : ∃ d ds, normalizeWord w b = d :: ds := by
          cases hn : normalizeWord w b with
          | nil => exact absurd hn (normalizeWord_ne_nil hw b)
          | cons d ds => exact ⟨d, ds, rfl⟩
        have htail : joinLoop []
            (fun word i => if i = 0 then lowercaseWord (normalizeWord word b)
              else capitalizeWord (normalizeWord word b)) 1 rest =
            joinLoop [] (fun word _ => capitalizeWord (normalizeWord word b))
              1 rest := by
          apply joinLoop_congr
          intro u j hj
          rw [if_neg (by omega)]
        simp only [joinLoop, Nat.lt_irrefl, false_and, if_false,
          List.nil_append, if_pos rfl, htail, hnd]
        simp [lowercaseWord, capitalizeWord, toLower_toUpper]

/-- Claim C8: Snake and Flat are Kebab with fixed separators `"_"` and `""`,
on both input forms; and `KebabCase "XMLHttpRequest" = "xml-http-request"`,
`SnakeCase "XMLHttpRequest" = "xml_http_request"`,
`TrainCase("XMLHttpRequest", normalize) = "Xml-Http-Request"`. -/
theorem snake_flat_derive_from_kebab :
    (∀ s : List Char, SnakeCaseStr s = KebabCaseStr s [['_']]) ∧
    (∀ v : List (List Char), SnakeCaseWords v = KebabCaseWords v [['_']]) ∧
    (∀ s : List Char, FlatCaseStr s = KebabCaseStr s [[]]) ∧
    (∀ v : List (List Char), FlatCaseWords v = KebabCaseWords v [[]]) ∧
    KebabCaseStr "XMLHttpRequest".toList [] = "xml-http-request".toList ∧
    SnakeCaseStr "XMLHttpRequest".toList = "xml_http_request".toList ∧
    TrainCaseStr "XMLHttpRequest".toList true = "Xml-Http-Request".toList :=
  ⟨fun _ => rfl, fun _ => rfl, fun _ => rfl, fun _ => rfl,
   by decide, by decide, by decide⟩

/-- Claim C9: tokenizing the empty string yields the empty sequence (not a
one-element sequence holding `""`), and every convention applied to the empty
string or to an empty word sequence returns the empty string. -/
theorem empty_input_empty_output :
    SplitByCase [] = [] ∧
    (∀ b, PascalCaseStr [] b = []) ∧ (∀ b, CamelCaseStr [] b = []) ∧
    (∀ sep, KebabCaseStr [] sep = []) ∧ SnakeCaseStr [] = [] ∧
    (∀ b, TrainCaseStr [] b = []) ∧ FlatCaseStr [] = [] ∧
    (∀ b, PascalCaseWords [] b = []) ∧ (∀ b, CamelCaseWords [] b = []) ∧
    (∀ sep, KebabCaseWords [] sep = []) ∧ SnakeCaseWords [] = [] ∧
    (∀ b, TrainCaseWords [] b = []) ∧ FlatCaseWords [] = [] :=
  ⟨rfl, fun _ => rfl, fun _ => rfl, fun _ => rfl, rfl, fun _ => rfl, rfl,
   fun _ => rfl, fun _ => rfl, fun _ => rfl, rfl, fun _ => rfl, rfl⟩

/-- Claim C10: `UpperFirst` and `LowerFirst` are total at the empty-string
edge: both return the empty string unchanged. -/
theorem upperFirst_lowerFirst_empty :
    UpperFirst [] = [] ∧ LowerFirst [] = [] :=
  ⟨rfl, rfl⟩

end Sx
